import Mathlib

/-!
Verification of the dataset-assembly and term-frequency pipeline of
`referee_reports/referee_report_dataset.py` (class `RefereeReportDataset`).

The Python code is shallowly embedded:

* pandas `DataFrame`s become Lean lists of row structures carrying an
  explicit `idx` field that models the pandas row label (index);
* the floating point values produced by pandas division are modelled by
  `PVal`, rationals extended with `nan`/`inf`/`-inf`, with IEEE-754-style
  division so that division by a zero row sum yields `nan`/`inf` exactly as
  `DataFrame.div` does;
* the seeded random primitives (`random.Random(seed).shuffle`,
  `DataFrame.sample(n=1, random_state=seed)`, `np.random.choice` after
  `np.random.seed(seed)`) are abstracted as explicit function parameters
  that depend only on the seed and on their arguments, reflecting that the
  source constructs a fresh deterministically seeded generator at each call;
  theorems quantify over these parameters, so they hold for the concrete
  Mersenne-Twister implementations as well as any other;
* raising a Python exception is modelled with `Except`;
* the potentially non-terminating `for paper in cycle(papers)` loop of
  `_balance_sample_by_categorical_column` is modelled with explicit fuel; a
  run that "terminates normally" is one that returns `Except.ok`.
-/

namespace RefereeReports

/-! ## Term-frequency matrices (`_build_tf_matrices`)

The vectorizer (`CountVectorizer`) itself is an external collaborator; the
embedding starts from the two count matrices `tf_reports` and `tf_papers`
(`List (List ℕ)`, one row per report, one column per vocabulary token) that
`vectorizer.transform(...).toarray()` produces, and models the numeric
transformation that `_build_tf_matrices` applies to them.  The resulting
matrix is the one concatenated column-wise onto the dataset. -/

namespace TF

/-- Pandas cell values after division: a float that is either a finite
rational or one of the IEEE special values.  Count matrices hold naturals,
which are injected via `PVal.num`. -/
inductive PVal where
  | num : ℚ → PVal
  | nan : PVal
  | inf : PVal
  | ninf : PVal
deriving DecidableEq, Repr

/-- IEEE-754-style division on `PVal`: finite / 0 is `±inf`, 0 / 0 is `nan`,
`nan` is absorbing.  In the pipeline below only finite/finite divisions
actually occur. -/
def pdiv : PVal → PVal → PVal
  | .num a, .num b =>
      if b = 0 then (if a = 0 then .nan else if 0 < a then .inf else .ninf)
      else .num (a / b)
  | .nan, _ => .nan
  | _, .nan => .nan
  | .inf, .inf => .nan
  | .inf, .ninf => .nan
  | .ninf, .inf => .nan
  | .ninf, .ninf => .nan
  | .inf, .num b => if b < 0 then .ninf else .inf
  | .ninf, .num b => if b < 0 then .inf else .ninf
  | .num _, .inf => .num 0
  | .num _, .ninf => .num 0

/-- IEEE-754-style addition on `PVal`; used only to state row-sum
properties. -/
def padd : PVal → PVal → PVal
  | .num a, .num b => .num (a + b)
  | .nan, _ => .nan
  | _, .nan => .nan
  | .inf, .ninf => .nan
  | .ninf, .inf => .nan
  | .inf, _ => .inf
  | _, .inf => .inf
  | .ninf, _ => .ninf
  | _, .ninf => .ninf

/-- Sum of a row of `PVal`s (strict `nan` propagation); used in statements
about normalized rows, whose cells are all finite or all `nan`. -/
def psum (l : List PVal) : PVal := l.foldr padd (.num 0)

/-- Laplace smoothing: `tf + 1` on a count `DataFrame` adds one to every
cell. -/
def addOne (m : List (List ℕ)) : List (List ℕ) :=
  m.map (fun row => row.map (fun x => x + 1))

/-- Sum along `axis=1`: the length (in tokens) of each document. -/
def rowSums (m : List (List ℕ)) : List ℕ := m.map (fun row => row.sum)

/-- `tf.div(lengths, axis=0)`: divide every cell of a row by that row's sum.
A zero row sum produces `nan` cells (0/0), exactly as in pandas. -/
def divByRowSum (m : List (List ℕ)) : List (List PVal) :=
  m.map (fun row => row.map (fun (x : ℕ) => pdiv (.num (x : ℚ)) (.num (row.sum : ℚ))))

/-- Element-wise `DataFrame` division of two row- and column-aligned
matrices (`self.tf_reports / self.tf_papers`). -/
def elemDiv (a b : List (List PVal)) : List (List PVal) :=
  List.zipWith (fun ra rb => List.zipWith pdiv ra rb) a b

/-- Element-wise `DataFrame` subtraction `tf_reports - tf_papers` (signed). -/
def subMat (a b : List (List ℕ)) : List (List ℤ) :=
  List.zipWith (fun ra rb => List.zipWith (fun (x y : ℕ) => (x : ℤ) - (y : ℤ)) ra rb) a b

/-- The mask assignment `adjusted[adjusted < 0] = 0`: replace negative cells
by zero. -/
def clampNeg (m : List (List ℤ)) : List (List ℤ) :=
  m.map (fun row => row.map (fun x => if x < 0 then 0 else x))

/-- Inject an integer matrix into `PVal` cells. -/
def intMat (m : List (List ℤ)) : List (List PVal) :=
  m.map (fun row => row.map (fun (x : ℤ) => PVal.num (x : ℚ)))

/-- Numeric core of `_build_tf_matrices`: given the two raw count matrices,
produce the matrix that is concatenated onto `self.df`, following the
source's four branches on `normalize_documents_by_length` and
`adjust_reports_with_papers`. -/
def buildTFMatrix (adjustReportsWithPapers normalizeDocumentsByLength : Bool)
    (tfReports tfPapers : List (List ℕ)) : List (List PVal) :=
  if normalizeDocumentsByLength then
    if adjustReportsWithPapers then
      -- Laplace smooth reports and papers, normalize each by row sums,
      -- then calculate NR_ij / NP_j.
      let tfR := addOne tfReports
      let tfP := addOne tfPapers
      elemDiv (divByRowSum tfR) (divByRowSum tfP)
    else
      -- Normalize reports by their row sums.
      divByRowSum tfReports
  else
    if adjustReportsWithPapers then
      -- Subtract the papers matrix and replace negative cells by 0.
      intMat (clampNeg (subMat tfReports tfPapers))
    else
      -- Raw report word counts.
      intMat (tfReports.map (fun row => row.map (fun (x : ℕ) => (x : ℤ))))

/-- Cell accessor used in statements: the value in row `i`, column `j` of a
matrix, when both exist. -/
def cell? (m : List (List PVal)) (i j : ℕ) : Option PVal :=
  m[i]?.bind (fun row => row[j]?)

end TF

/-! ## Merging report and paper records (`build_df`)

`build_df` starts with
`self.report_df.merge(self.paper_df, how='inner', left_on='paper',
right_on='paper', validate='m:1')`.  pandas' `validate='m:1'` raises
`MergeError` exactly when the join keys are not unique on the right
(papers) side; an inner join silently drops left rows without a match. -/

namespace Merge

/-- One row of `report_df`: the `paper` join key plus the remaining report
fields (referee number and a stand-in for the other columns). -/
structure ReportRec where
  paper : ℕ
  refnum : ℕ
  rdata : ℕ
deriving DecidableEq, Repr

/-- One row of `paper_df`: the `paper` join key plus a stand-in for the
remaining paper fields. -/
structure PaperRec where
  paper : ℕ
  pdata : ℕ
deriving DecidableEq, Repr

/-- Failure raised by `pd.merge(..., validate='m:1')`. -/
inductive MergeErr where
  | notManyToOne
deriving DecidableEq, Repr

/-- The merge step of `build_df`: inner join of reports with papers on the
`paper` key, validated `m:1`.  The validation checks that the right-side
(paper) keys are unique; each surviving output row pairs a report with the
unique matching paper, and reports without a matching paper are dropped by
the inner join. -/
def mergeManyToOne (reports : List ReportRec) (papers : List PaperRec) :
    Except MergeErr (List (ReportRec × PaperRec)) :=
  if (papers.map PaperRec.paper).Nodup then
    .ok (reports.filterMap (fun r =>
      (papers.find? (fun p => p.paper = r.paper)).map (fun p => (r, p))))
  else .error .notManyToOne

end Merge

/-! ## Mixed-gender restriction (`_restrict_to_papers_with_mixed_gender_referees`) -/

namespace Restrict

/-- One row of the merged dataset as seen by the restriction: its pandas
index label, the `_paper_` group key and the `_female_` indicator (a float
column in the source, hence `ℚ`). -/
structure GRow where
  idx : ℕ
  paper : ℕ
  female : ℚ
deriving DecidableEq, Repr

/-- `df.groupby('_paper_')['_female_'].transform('mean')` evaluated at one
paper: the mean of the `_female_` indicator over the paper's rows. -/
def genderBreakdown (df : List GRow) (p : ℕ) : ℚ :=
  let g := df.filter (fun r => r.paper = p)
  (g.map GRow.female).sum / (g.length : ℚ)

/-- `reset_index(drop=True)`: relabel rows with consecutive integers
starting at `n` (the source uses `n = 0`). -/
def resetIdxG : ℕ → List GRow → List GRow
  | _, [] => []
  | n, r :: rs => { r with idx := n } :: resetIdxG (n + 1) rs

/-- The whole restriction: compute every row's paper-level gender
breakdown, collect the index labels of rows whose breakdown is exactly 0 or
exactly 1, drop those labels, and reset the index. -/
def restrictMixed (df : List GRow) : List GRow :=
  let badIdx := (df.filter (fun r =>
    genderBreakdown df r.paper = 0 ∨ genderBreakdown df r.paper = 1)).map GRow.idx
  resetIdxG 0 (df.filter (fun r => ¬ r.idx ∈ badIdx))

end Restrict

/-! ## Class balancing (`_balance_sample_by_categorical_column`) -/

namespace Balance

/-- One row of the dataset as seen by the balancer: its pandas index label,
its `_paper_` value and its value in the column being balanced. -/
structure BRow where
  idx : ℕ
  paper : ℕ
  cls : ℕ
deriving DecidableEq, Repr

/-- Instrumentation record for one successful row removal: the removed row
and how many rows with the removed row's `(paper, class)` pair the dataset
held at the moment of removal (the removed row included). -/
structure DropEvent where
  row : BRow
  countBefore : ℕ
deriving DecidableEq, Repr

/-- Abnormal outcomes of the balancing loop: `keyError` models
`DataFrame.drop` on an index label that is no longer present;
`fuelExhausted` models non-termination of `for paper in cycle(papers)`. -/
inductive BErr where
  | keyError
  | fuelExhausted
deriving DecidableEq, Repr

/-- Insert a `(value, count)` pair into a count-descending list, used to
model the count-descending order of `Series.value_counts()`. -/
def insertDesc (x : ℕ × ℕ) : List (ℕ × ℕ) → List (ℕ × ℕ)
  | [] => [x]
  | y :: ys => if y.2 < x.2 then x :: y :: ys else y :: insertDesc x ys

/-- Sort `(value, count)` pairs by descending count (insertion sort).  The
relative order of equal counts is left unspecified by pandas; no claim
below depends on it. -/
def sortDesc (l : List (ℕ × ℕ)) : List (ℕ × ℕ) := l.foldr insertDesc []

/-- `Series.value_counts()`: each distinct value paired with its number of
occurrences, in count-descending order. -/
def valueCounts (l : List ℕ) : List (ℕ × ℕ) :=
  sortDesc (l.dedup.map (fun v => (v, l.count v)))

/-- `value_counts.min()`: the least count (0 only for an empty series, in
which case it is never used). -/
def minSnd : List (ℕ × ℕ) → ℕ
  | [] => 0
  | [x] => x.2
  | x :: y :: ys => min x.2 (minSnd (y :: ys))

/-- Number of dataset rows carrying class value `c` in the balanced
column. -/
def countCls (df : List BRow) (c : ℕ) : ℕ :=
  (df.filter (fun r => r.cls = c)).length

/-- `self.df['_paper_'].value_counts().index.tolist()`: the distinct paper
identifiers, most frequent first. -/
def papersOf (df : List BRow) : List ℕ :=
  (valueCounts (df.map BRow.paper)).map Prod.fst

/-- `self.df.drop(index=[i])`: remove the rows labelled `i`, or raise
`KeyError` when no row carries that label. -/
def dropIdx (df : List BRow) (i : ℕ) : Except BErr (List BRow) :=
  if df.any (fun r => r.idx = i) then .ok (df.filter (fun r => ¬ r.idx = i))
  else .error .keyError

/-- The `for paper in cycle(papers)` loop balancing one oversampled class:
`snapshot` is `oversampled_rows` (the rows of the class, captured once and,
as in the source, never refreshed), `pending` the papers not yet visited in
the current cycle, `dropped` the `num_rows_dropped` counter.  A paper whose
snapshot group has fewer than two rows is skipped; otherwise
`sample(n=1, random_state=seed)` picks a position in the group (modelled by
`pick`, a pure function of the seed and the group) and that row's label is
dropped from the live dataset.  The loop stops once `imbalance` rows have
been dropped; `fuel` bounds the number of iterations. -/
def classLoop (pick : ℕ → List BRow → ℕ) (seed : ℕ) (snapshot : List BRow)
    (papers : List ℕ) (imbalance : ℕ) :
    ℕ → List BRow → ℕ → List ℕ → Except BErr (List BRow × List DropEvent)
  | 0, _, _, _ => .error .fuelExhausted
  | fuel + 1, df, dropped, [] =>
      classLoop pick seed snapshot papers imbalance fuel df dropped papers
  | fuel + 1, df, dropped, p :: rest =>
      if (snapshot.filter (fun r => r.paper = p)).length < 2 then
        classLoop pick seed snapshot papers imbalance fuel df dropped rest
      else
        match (snapshot.filter (fun r => r.paper = p))[pick seed
            (snapshot.filter (fun r => r.paper = p))]? with
        | none => .error .keyError
        | some r =>
          match dropIdx df r.idx with
          | .error e => .error e
          | .ok df2 =>
            if dropped + 1 = imbalance then
              .ok (df2, [⟨r, (df.filter (fun x => x.paper = r.paper ∧ x.cls = r.cls)).length⟩])
            else
              match classLoop pick seed snapshot papers imbalance fuel df2 (dropped + 1) rest with
              | .error e => .error e
              | .ok (dffin, evs) =>
                .ok (dffin,
                  ⟨r, (df.filter (fun x => x.paper = r.paper ∧ x.cls = r.cls)).length⟩ :: evs)

/-- The row that a visit to paper `p` would sample from the (fixed)
snapshot: `none` when the paper's snapshot group is protected (fewer than
two rows), otherwise the group element at the picked position.  Because
`pick` is a pure function of the seed and the group, revisiting a paper
always designates the same row. -/
def pickedOf (pick : ℕ → List BRow → ℕ) (seed : ℕ) (snapshot : List BRow) (p : ℕ) :
    Option BRow :=
  if (snapshot.filter (fun r => r.paper = p)).length < 2 then none
  else (snapshot.filter (fun r => r.paper = p))[pick seed
    (snapshot.filter (fun r => r.paper = p))]?

/-- One iteration of the outer `for index, count in value_counts.iteritems()`
loop: the minimum-count class is skipped, any other class has
`count - minimum_count` of its rows removed by `classLoop`, visiting the
seed-shuffled paper list in round-robin order. -/
def balanceClass (pick : ℕ → List BRow → ℕ) (shuffle : ℕ → List ℕ → List ℕ)
    (seed fuel : ℕ) (df : List BRow) (c minC count : ℕ) :
    Except BErr (List BRow × List DropEvent) :=
  if count = minC then .ok (df, [])
  else
    classLoop pick seed (df.filter (fun r => r.cls = c)) (shuffle seed (papersOf df))
      (count - minC) fuel df 0 (shuffle seed (papersOf df))

/-- The outer loop over `value_counts`, threading the live dataset and
accumulating the removal events. -/
def balanceAll (pick : ℕ → List BRow → ℕ) (shuffle : ℕ → List ℕ → List ℕ)
    (seed fuel : ℕ) (minC : ℕ) :
    List (ℕ × ℕ) → List BRow → Except BErr (List BRow × List DropEvent)
  | [], df => .ok (df, [])
  | (c, n) :: rest, df =>
      match balanceClass pick shuffle seed fuel df c minC n with
      | .error e => .error e
      | .ok (df2, evs) =>
        match balanceAll pick shuffle seed fuel minC rest df2 with
        | .error e => .error e
        | .ok (df3, evs2) => .ok (df3, evs ++ evs2)

/-- `reset_index(drop=True)` for balancer rows. -/
def resetIdxB : ℕ → List BRow → List BRow
  | _, [] => []
  | n, r :: rs => { r with idx := n } :: resetIdxB (n + 1) rs

/-- `_balance_sample_by_categorical_column`: compute the value counts of
the balanced column and their minimum, run the removal loop for every
class, and reset the index.  (The two `warnings.warn` calls of the source
are non-fatal and do not touch the data, so they have no counterpart
here.)  The extra `List DropEvent` component records each removal for the
statements below; the dataset component is the source's `self.df`. -/
def balanceSample (pick : ℕ → List BRow → ℕ) (shuffle : ℕ → List ℕ → List ℕ)
    (seed fuel : ℕ) (df : List BRow) :
    Except BErr (List BRow × List DropEvent) :=
  match balanceAll pick shuffle seed fuel (minSnd (valueCounts (df.map BRow.cls)))
      (valueCounts (df.map BRow.cls)) df with
  | .error e => .error e
  | .ok (df2, evs) => .ok (resetIdxB 0 df2, evs)

end Balance

/-! ## Binomial resampling (`resample_variable_binomial`) -/

namespace Resample

/-- One dataset row as seen by the resampler: its pandas index label and
its value in the column being resampled. -/
structure SRow where
  idx : ℕ
  val : ℚ
deriving DecidableEq, Repr

/-- `ValueError` raised by `_validate_columns` when the requested column is
absent. -/
inductive VErr where
  | columnNotFound
deriving DecidableEq, Repr

/-- `resample_variable_binomial(variable, p, ensure_balanced)`: after
validating that `variable` is a dataset column, draw
`int(0.5 * len(df)) = ⌊N/2⌋` distinct labels without replacement from
`arange(0, N)` (`np.random.choice` after `np.random.seed(seed)`, modelled
by `choice seed N ⌊N/2⌋`), set the column to 1 on the drawn labels and to 0
on the rest of the index.  The `p` and `ensureBalanced` arguments are
accepted but, as in the source, never read. -/
def resampleVariableBinomial (choice : ℕ → ℕ → ℕ → Finset ℕ) (seed : ℕ)
    (cols : List String) (varName : String) (p : ℚ) (ensureBalanced : Bool)
    (df : List SRow) : Except VErr (List SRow) :=
  if varName ∈ cols then
    let femaleIndices := choice seed df.length (df.length / 2)
    .ok (df.map (fun r =>
      if r.idx ∈ femaleIndices then { r with val := 1 } else { r with val := 0 }))
  else .error .columnNotFound

end Resample

/-! ## Global interpreter randomness

Both randomized operations construct their generators from the stored seed:
`_balance_sample_by_categorical_column` builds `random.Random(self.seed)`
and passes `random_state=self.seed` to `sample`, and
`resample_variable_binomial` begins with `np.random.seed(self.seed)`.  The
wrappers below make the interpreter-wide generator state an explicit input
`g`, which the bodies consequently never consult. -/

/-- `_balance_sample_by_categorical_column` as a function of the ambient
interpreter RNG state `g`:  the body re-derives all randomness from the
stored seed, so `g` is unused. -/
def balanceWithGlobalRng (g : ℕ) (pick : ℕ → List Balance.BRow → ℕ)
    (shuffle : ℕ → List ℕ → List ℕ) (seed fuel : ℕ) (df : List Balance.BRow) :
    Except Balance.BErr (List Balance.BRow × List Balance.DropEvent) :=
  Balance.balanceSample pick shuffle seed fuel df

/-- `resample_variable_binomial` as a function of the ambient numpy RNG
state `g`: the first statement `np.random.seed(self.seed)` overwrites the
global state with a function of the seed, so the draw depends only on the
seed and `g` is unused. -/
def resampleWithGlobalRng (g : ℕ) (choice : ℕ → ℕ → ℕ → Finset ℕ) (seed : ℕ)
    (cols : List String) (varName : String) (p : ℚ) (ensureBalanced : Bool)
    (df : List Resample.SRow) : Except Resample.VErr (List Resample.SRow) :=
  Resample.resampleVariableBinomial choice seed cols varName p ensureBalanced df

/-! ## Term-frequency theorems (claims C1, C4, C5) -/

namespace TF

theorem sum_map_add_one (l : List ℕ) :
    (l.map (fun x => x + 1)).sum = l.sum + l.length := by
  induction l with
  | nil => rfl
  | cons a t ih => simp only [List.map_cons, List.sum_cons, List.length_cons, ih]; omega

theorem pdiv_num (a b : ℚ) (hb : b ≠ 0) : pdiv (.num a) (.num b) = .num (a / b) := by
  simp [pdiv, hb]

theorem psum_map_num (l : List ℚ) : psum (l.map PVal.num) = .num l.sum := by
  induction l with
  | nil => rfl
  | cons a t ih =>
    simp only [List.map_cons, psum, List.foldr_cons, List.sum_cons]
    have h : (t.map PVal.num).foldr padd (.num 0) = .num t.sum := ih
    rw [h]
    rfl

theorem sum_map_div (l : List ℚ) (c : ℚ) :
    (l.map (fun x => x / c)).sum = l.sum / c := by
  induction l with
  | nil => simp
  | cons a t ih => simp [ih, add_div]

theorem smoothNorm_cell (m : List (List ℕ)) (i j : ℕ) (row : List ℕ) (x : ℕ)
    (hi : m[i]? = some row) (hj : row[j]? = some x) :
    (divByRowSum (addOne m))[i]?.bind (fun r => r[j]?) =
      some (pdiv (.num ((x : ℚ) + 1)) (.num ((row.sum : ℚ) + (row.length : ℚ)))) := by
  simp only [divByRowSum, addOne, List.getElem?_map, hi, Option.map_some', Option.some_bind]
  rw [hj]
  simp only [Option.map_some', sum_map_add_one]
  push_cast
  rfl

theorem norm_cell (m : List (List ℕ)) (i j : ℕ) (row : List ℕ) (x : ℕ)
    (hi : m[i]? = some row) (hj : row[j]? = some x) :
    (divByRowSum m)[i]?.bind (fun r => r[j]?) =
      some (pdiv (.num (x : ℚ)) (.num (row.sum : ℚ))) := by
  simp only [divByRowSum, List.getElem?_map, hi, Option.map_some', Option.some_bind]
  rw [hj]
  rfl

/-- C1 (confirmed): in paper-adjusted, length-normalized mode the produced
matrix adds 1 to every cell of both count matrices, divides each row by its
row sum and then divides the normalized report row element-wise by the
normalized paper row: every cell `(i, j)` equals
`((r+1)/(Σrow_r + len)) / ((p+1)/(Σrow_p + len))`; on report row `[2,0]`
and paper row `[1,1]` the result row is `[3/2, 1/2]`. -/
theorem c1_paper_adjusted_normalized :
    (∀ (R P : List (List ℕ)) (i j : ℕ) (rr pr : List ℕ) (a b : ℕ),
      R[i]? = some rr → P[i]? = some pr → rr[j]? = some a → pr[j]? = some b →
      cell? (buildTFMatrix true true R P) i j =
        some (.num ((((a : ℚ) + 1) / ((rr.sum : ℚ) + (rr.length : ℚ))) /
                    (((b : ℚ) + 1) / ((pr.sum : ℚ) + (pr.length : ℚ)))))) ∧
    buildTFMatrix true true [[2, 0]] [[1, 1]] = [[.num (3/2), .num (1/2)]] := by
  constructor
  · intro R P i j rr pr a b hR hP hr hp
    have hjr : j < rr.length := (List.getElem?_eq_some.mp hr).1
    have hjp : j < pr.length := (List.getElem?_eq_some.mp hp).1
    have h1r : (0 : ℚ) < (rr.length : ℚ) := by
      exact_mod_cast (Nat.zero_le j).trans_lt hjr
    have h1p : (0 : ℚ) < (pr.length : ℚ) := by
      exact_mod_cast (Nat.zero_le j).trans_lt hjp
    have hrs : ((rr.sum : ℚ) + (rr.length : ℚ)) ≠ 0 :=
      ne_of_gt (add_pos_of_nonneg_of_pos (Nat.cast_nonneg _) h1r)
    have hps : ((pr.sum : ℚ) + (pr.length : ℚ)) ≠ 0 :=
      ne_of_gt (add_pos_of_nonneg_of_pos (Nat.cast_nonneg _) h1p)
    have hq2 : (((b : ℚ) + 1) / ((pr.sum : ℚ) + (pr.length : ℚ))) ≠ 0 := by
      apply div_ne_zero _ hps
      positivity
    have hA := smoothNorm_cell R i j rr a hR hr
    have hB := smoothNorm_cell P i j pr b hP hp
    rw [pdiv_num _ _ hrs] at hA
    rw [pdiv_num _ _ hps] at hB
    have hmain : cell? (buildTFMatrix true true R P) i j =
        Option.bind ((divByRowSum (addOne R))[i]?.bind (fun r => r[j]?))
          (fun u => Option.map (fun v => pdiv u v)
            ((divByRowSum (addOne P))[i]?.bind (fun r => r[j]?))) := by
      simp only [buildTFMatrix, if_true, cell?, elemDiv]
      rw [List.getElem?_zipWith']
      cases hA' : (divByRowSum (addOne R))[i]? with
      | none => simp [hA']
      | some ra =>
        cases hB' : (divByRowSum (addOne P))[i]? with
        | none => simp [hA', hB']
        | some rb =>
          simp only [hA', hB', Option.map_some', Option.some_bind, Option.bind_some]
          rw [List.getElem?_zipWith']
          cases ca : ra[j]? with
          | none => simp [ca]
          | some u =>
            cases cb : rb[j]? with
            | none => simp [ca, cb]
            | some v => simp [ca, cb]
    rw [hmain, hA, hB]
    simp only [Option.some_bind, Option.map_some']
    rw [pdiv_num _ _ hq2]
  · norm_num [buildTFMatrix, elemDiv, divByRowSum, addOne, pdiv]

/-- Witness for C1 at the concrete scenario input. -/
theorem c1_witness :
    cell? (buildTFMatrix true true [[2, 0]] [[1, 1]]) 0 0 =
      some (.num ((((2 : ℚ) + 1) / (((2 : ℚ)) + (2 : ℚ))) /
                  (((1 : ℚ) + 1) / (((2 : ℚ)) + (2 : ℚ))))) := by
  have h := c1_paper_adjusted_normalized.1 [[2, 0]] [[1, 1]] 0 0 [2, 0] [1, 1] 2 1
    rfl rfl rfl rfl
  simpa using h

theorem cell?_intMat_clamp (M : List (List ℤ)) (i j : ℕ) :
    (intMat (clampNeg M))[i]?.bind (fun r => r[j]?) =
      (M[i]?.bind (fun r => r[j]?)).map (fun x => PVal.num ((max x 0 : ℤ) : ℚ)) := by
  simp only [intMat, clampNeg, List.map_map, List.getElem?_map]
  cases hM : M[i]? with
  | none => rfl
  | some row =>
    simp only [Option.map_some', Option.some_bind, List.getElem?_map, Function.comp]
    cases hj : row[j]? with
    | none => rfl
    | some x =>
      simp only [Option.map_some', Option.some_bind]
      have : (if x < 0 then (0 : ℤ) else x) = max x 0 := by
        split <;> omega
      rw [this]

theorem cell?_subMat (R P : List (List ℕ)) (i j : ℕ) (rr pr : List ℕ) (a b : ℕ)
    (hR : R[i]? = some rr) (hP : P[i]? = some pr)
    (hr : rr[j]? = some a) (hp : pr[j]? = some b) :
    (subMat R P)[i]?.bind (fun r => r[j]?) = some ((a : ℤ) - (b : ℤ)) := by
  simp only [subMat]
  rw [List.getElem?_zipWith', hR, hP]
  simp only [Option.map_some', Option.some_bind, Option.bind_some]
  rw [List.getElem?_zipWith', hr, hp]
  rfl

/-- C4 (confirmed): in paper-adjusted, unnormalized mode every cell of the
produced matrix is the report count minus the paper count clamped below at
zero, and in particular every cell is nonnegative, also when the raw report
count is below the raw paper count. -/
theorem c4_paper_adjusted_clamp :
    (∀ (R P : List (List ℕ)) (i j : ℕ) (rr pr : List ℕ) (a b : ℕ),
      R[i]? = some rr → P[i]? = some pr → rr[j]? = some a → pr[j]? = some b →
      cell? (buildTFMatrix true false R P) i j =
        some (.num ((max ((a : ℤ) - (b : ℤ)) 0 : ℤ) : ℚ))) ∧
    (∀ (R P : List (List ℕ)) (i j : ℕ) (v : PVal),
      cell? (buildTFMatrix true false R P) i j = some v →
      ∃ q : ℚ, v = .num q ∧ 0 ≤ q) := by
  have hbuild : ∀ (R P : List (List ℕ)),
      buildTFMatrix true false R P = intMat (clampNeg (subMat R P)) := by
    intro R P
    simp [buildTFMatrix]
  constructor
  · intro R P i j rr pr a b hR hP hr hp
    rw [show cell? (buildTFMatrix true false R P) i j =
          (intMat (clampNeg (subMat R P)))[i]?.bind (fun r => r[j]?) by rw [cell?, hbuild]]
    rw [cell?_intMat_clamp, cell?_subMat R P i j rr pr a b hR hP hr hp]
    rfl
  · intro R P i j v hv
    rw [show cell? (buildTFMatrix true false R P) i j =
          (intMat (clampNeg (subMat R P)))[i]?.bind (fun r => r[j]?) by rw [cell?, hbuild]] at hv
    rw [cell?_intMat_clamp] at hv
    rcases Option.map_eq_some'.mp hv with ⟨x, _, hx⟩
    refine ⟨((max x 0 : ℤ) : ℚ), hx.symm, ?_⟩
    exact_mod_cast le_max_right x 0

/-- Witness for C4 at a concrete input whose report count is below the
paper count: the cell clamps to zero. -/
theorem c4_witness :
    cell? (buildTFMatrix true false [[1]] [[3]]) 0 0 =
      some (.num ((max ((1 : ℤ) - (3 : ℤ)) 0 : ℤ) : ℚ)) :=
  c4_paper_adjusted_clamp.1 [[1]] [[3]] 0 0 [1] [3] 1 3 rfl rfl rfl rfl

/-- C5 counterexample: in length-normalized, non-adjusted mode a row whose
raw token count is zero is NOT flagged or signalled; the builder returns a
matrix in which that row's cells are silently `nan` (pandas 0/0).  The
second input row below has raw counts `[0, 0]` and the corresponding output
row is `[nan, nan]`, while the call raises no error of any kind. -/
theorem c5_counterexample :
    buildTFMatrix false true [[1, 1], [0, 0]] [[1, 1], [0, 0]] =
      [[.num (1/2), .num (1/2)], [.nan, .nan]] := by
  norm_num [buildTFMatrix, divByRowSum, pdiv]

/-- C5 as amended (proved): in length-normalized, non-adjusted mode every
output row whose raw token count is nonzero sums to exactly 1; a row with
zero raw token count comes out with every cell `nan`, propagated silently
in the returned matrix (no flag or signal exists in the code path). -/
theorem c5_normalized_row_sums :
    ∀ (R P : List (List ℕ)) (i : ℕ) (rr : List ℕ), R[i]? = some rr →
      (rr.sum ≠ 0 → ((buildTFMatrix false true R P)[i]?).map psum = some (.num 1)) ∧
      (rr.sum = 0 → (buildTFMatrix false true R P)[i]? = some (rr.map (fun _ => PVal.nan))) := by
  intro R P i rr hR
  have hrow : (buildTFMatrix false true R P)[i]? =
      some (rr.map (fun (x : ℕ) => pdiv (.num (x : ℚ)) (.num (rr.sum : ℚ)))) := by
    simp only [buildTFMatrix, Bool.false_eq_true, if_false, if_true, divByRowSum,
      List.getElem?_map, hR, Option.map_some']
  constructor
  · intro hs
    rw [hrow]
    simp only [Option.map_some']
    congr 1
    have hs' : ((rr.sum : ℚ)) ≠ 0 := Nat.cast_ne_zero.mpr hs
    have h1 : rr.map (fun (x : ℕ) => pdiv (.num (x : ℚ)) (.num (rr.sum : ℚ)))
        = (rr.map (fun (x : ℕ) => (x : ℚ) / (rr.sum : ℚ))).map PVal.num := by
      rw [List.map_map]
      apply List.map_congr_left
      intro x _
      simp only [Function.comp]
      rw [pdiv_num _ _ hs']
    rw [h1, psum_map_num]
    congr 1
    have h2 : rr.map (fun (x : ℕ) => (x : ℚ) / (rr.sum : ℚ))
        = (rr.map (fun (x : ℕ) => (x : ℚ))).map (fun q => q / (rr.sum : ℚ)) := by
      rw [List.map_map]
      rfl
    rw [h2, sum_map_div]
    have h3 : (rr.map (fun (x : ℕ) => (x : ℚ))).sum = ((rr.sum : ℕ) : ℚ) := by
      exact_mod_cast (Nat.cast_list_sum rr).symm
    rw [h3, div_self hs']
  · intro hs
    rw [hrow]
    congr 1
    apply List.map_congr_left
    intro x hx
    have hx0 : x = 0 := List.sum_eq_zero_iff.mp hs x hx
    simp [hx0, hs, pdiv]

/-- Witness for the amended C5 at the concrete zero-count row. -/
theorem c5_witness :
    (buildTFMatrix false true [[1, 1], [0, 0]] [[1, 1], [0, 0]])[1]? =
      some [PVal.nan, PVal.nan] := by
  have h := (c5_normalized_row_sums [[1, 1], [0, 0]] [[1, 1], [0, 0]] 1 [0, 0] rfl).2 rfl
  simpa using h

end TF

/-! ## Merge theorems (claim C6) -/

namespace Merge

/-- C6 counterexample: an orphan report (its paper id 5 matches no paper
record, and the paper ids are unique) does NOT make the merge raise; the
merge returns a dataset in which the orphan has been silently dropped. -/
theorem c6_counterexample :
    mergeManyToOne [⟨5, 1, 0⟩] [⟨3, 0⟩] = .ok [] := by
  rfl

/-- C6 as amended (proved): the merge raises its validation error exactly
when a paper id is duplicated among the paper records; a report whose
paper id matches no paper record never appears in a successful result
(silently dropped by the inner join) but does not cause a failure. -/
theorem c6_merge_validation :
    (∀ (rs : List ReportRec) (ps : List PaperRec),
      (∃ e, mergeManyToOne rs ps = .error e) ↔ ¬ (ps.map PaperRec.paper).Nodup) ∧
    (∀ (rs : List ReportRec) (ps : List PaperRec)
      (out : List (ReportRec × PaperRec)) (r : ReportRec),
      mergeManyToOne rs ps = .ok out → r ∈ rs → (∀ p ∈ ps, p.paper ≠ r.paper) →
      ∀ pr ∈ out, pr.1 ≠ r) := by
  constructor
  · intro rs ps
    constructor
    · rintro ⟨e, he⟩ hnd
      rw [mergeManyToOne, if_pos hnd] at he
      exact absurd he (by simp)
    · intro hnd
      exact ⟨.notManyToOne, by rw [mergeManyToOne, if_neg hnd]⟩
  · intro rs ps out r hok hr horphan pr hpr hpr1
    by_cases hnd : (ps.map PaperRec.paper).Nodup
    · rw [mergeManyToOne, if_pos hnd] at hok
      have hout : rs.filterMap (fun r =>
          (ps.find? (fun p => p.paper = r.paper)).map (fun p => (r, p))) = out := by
        exact congrArg (fun x => match x with | .ok y => y | .error _ => out)
          hok
      rw [← hout] at hpr
      rcases List.mem_filterMap.mp hpr with ⟨a, _, hfa⟩
      rcases Option.map_eq_some'.mp hfa with ⟨p, hfind, hap⟩
      have ha1 : pr.1 = a := by rw [← hap]
      have ha_r : a = r := by rw [← ha1, hpr1]
      have hp_mem : p ∈ ps := List.mem_of_find?_eq_some hfind
      have hp_eq : p.paper = a.paper := by
        have h := List.find?_some hfind
        simpa using h
      exact horphan p hp_mem (by rw [hp_eq, ha_r])
    · rw [mergeManyToOne, if_neg hnd] at hok
      exact absurd hok (by simp)

/-- Witness for C6 (amended): with unique paper ids, a matched report
survives the merge while the orphan report is dropped rather than raising. -/
theorem c6_witness :
    ((⟨3, 2, 0⟩ : ReportRec), (⟨3, 0⟩ : PaperRec)).1 ≠ (⟨5, 1, 0⟩ : ReportRec) :=
  c6_merge_validation.2 [⟨5, 1, 0⟩, ⟨3, 2, 0⟩] [⟨3, 0⟩] [(⟨3, 2, 0⟩, ⟨3, 0⟩)]
    ⟨5, 1, 0⟩ (by rfl) (by decide) (by decide) (⟨3, 2, 0⟩, ⟨3, 0⟩) (by decide)

end Merge

/-! ## Restriction theorems (claims C7, C8) -/

namespace Restrict

theorem resetIdxG_pf : ∀ (n : ℕ) (l : List GRow),
    (resetIdxG n l).map (fun r => (r.paper, r.female)) =
      l.map (fun r => (r.paper, r.female)) := by
  intro n l
  induction l generalizing n with
  | nil => rfl
  | cons a t ih => simp [resetIdxG, ih]

theorem resetIdxG_idx : ∀ (n : ℕ) (l : List GRow),
    (resetIdxG n l).map GRow.idx = List.range' n l.length := by
  intro n l
  induction l generalizing n with
  | nil => rfl
  | cons a t ih => simp [resetIdxG, ih, List.range']

theorem resetIdxG_resetIdxG : ∀ (n : ℕ) (l : List GRow),
    resetIdxG n (resetIdxG n l) = resetIdxG n l := by
  intro n l
  induction l generalizing n with
  | nil => rfl
  | cons a t ih => simp [resetIdxG, ih]

theorem mem_resetIdxG : ∀ (n : ℕ) (l : List GRow) (r : GRow), r ∈ resetIdxG n l →
    ∃ s ∈ l, r.paper = s.paper ∧ r.female = s.female := by
  intro n l
  induction l generalizing n with
  | nil => intro r hr; exact absurd hr (by simp [resetIdxG])
  | cons a t ih =>
    intro r hr
    rw [resetIdxG, List.mem_cons] at hr
    rcases hr with h | h
    · exact ⟨a, List.mem_cons_self a t, by rw [h], by rw [h]⟩
    · rcases ih (n + 1) r h with ⟨s, hs, h1, h2⟩
      exact ⟨s, List.mem_cons_of_mem a hs, h1, h2⟩

theorem filter_paper_resetIdxG : ∀ (n : ℕ) (l : List GRow) (p : ℕ),
    ((resetIdxG n l).filter (fun r => r.paper = p)).map GRow.female =
      (l.filter (fun r => r.paper = p)).map GRow.female ∧
    ((resetIdxG n l).filter (fun r => r.paper = p)).length =
      (l.filter (fun r => r.paper = p)).length := by
  intro n l
  induction l generalizing n with
  | nil => intro p; exact ⟨rfl, rfl⟩
  | cons a t ih =>
    intro p
    by_cases h : a.paper = p
    · simp only [resetIdxG, List.filter_cons]
      have : ({ a with idx := n } : GRow).paper = a.paper := rfl
      simp [this, h, (ih (n + 1) p).1, (ih (n + 1) p).2]
    · simp only [resetIdxG, List.filter_cons]
      have : ({ a with idx := n } : GRow).paper = a.paper := rfl
      simp [this, h, (ih (n + 1) p).1, (ih (n + 1) p).2]

theorem genderBreakdown_resetIdxG (n : ℕ) (l : List GRow) (p : ℕ) :
    genderBreakdown (resetIdxG n l) p = genderBreakdown l p := by
  rw [genderBreakdown, genderBreakdown,
    (filter_paper_resetIdxG n l p).1, (filter_paper_resetIdxG n l p).2]

theorem restrictMixed_eq_filter (df : List GRow) (hnd : (df.map GRow.idx).Nodup) :
    restrictMixed df = resetIdxG 0 (df.filter (fun r =>
      ¬ (genderBreakdown df r.paper = 0 ∨ genderBreakdown df r.paper = 1))) := by
  rw [restrictMixed]
  congr 1
  apply List.filter_congr
  intro r hr
  have hmem : (r.idx ∈ (df.filter (fun s =>
      genderBreakdown df s.paper = 0 ∨ genderBreakdown df s.paper = 1)).map GRow.idx) ↔
      (genderBreakdown df r.paper = 0 ∨ genderBreakdown df r.paper = 1) := by
    constructor
    · intro h
      rcases List.mem_map.mp h with ⟨s, hs, hsidx⟩
      rcases List.mem_filter.mp hs with ⟨hsl, hsbad⟩
      have heq : s = r := List.inj_on_of_nodup_map hnd hsl hr hsidx
      rw [← heq]
      simpa using hsbad
    · intro h
      exact List.mem_map.mpr ⟨r, List.mem_filter.mpr ⟨hr, by simpa using h⟩, rfl⟩
  simp only [decide_eq_decide]
  exact not_congr hmem

/-- C7 (confirmed): the restriction removes exactly the rows of papers
whose per-paper mean of the gender indicator is exactly 0 or exactly 1,
keeps all other rows in order, and re-indexes the result densely from 0;
on the 4-row/2-paper dataset with referee genders [0,1] and [0,0] exactly
the first paper's two rows survive. -/
theorem c7_mixed_gender_restriction :
    (∀ df : List GRow, (df.map GRow.idx).Nodup →
      restrictMixed df = resetIdxG 0 (df.filter (fun r =>
        ¬ (genderBreakdown df r.paper = 0 ∨ genderBreakdown df r.paper = 1)))) ∧
    restrictMixed [⟨0, 10, 0⟩, ⟨1, 10, 1⟩, ⟨2, 20, 0⟩, ⟨3, 20, 0⟩] =
      [⟨0, 10, 0⟩, ⟨1, 10, 1⟩] := by
  refine ⟨restrictMixed_eq_filter, ?_⟩
  norm_num [restrictMixed, genderBreakdown, resetIdxG, List.filter]

/-- Witness for C7 at the scenario dataset. -/
theorem c7_witness :
    restrictMixed [⟨0, 10, 0⟩, ⟨1, 10, 1⟩, ⟨2, 20, 0⟩, ⟨3, 20, 0⟩] =
      resetIdxG 0 ([⟨0, 10, 0⟩, ⟨1, 10, 1⟩, ⟨2, 20, 0⟩, ⟨3, 20, 0⟩].filter (fun r =>
        ¬ (genderBreakdown [⟨0, 10, 0⟩, ⟨1, 10, 1⟩, ⟨2, 20, 0⟩, ⟨3, 20, 0⟩] r.paper = 0 ∨
           genderBreakdown [⟨0, 10, 0⟩, ⟨1, 10, 1⟩, ⟨2, 20, 0⟩, ⟨3, 20, 0⟩] r.paper = 1))) :=
  c7_mixed_gender_restriction.1 _ (by decide)

theorem filter_good_group (df : List GRow) (p : ℕ)
    (hgood : ¬ (genderBreakdown df p = 0 ∨ genderBreakdown df p = 1)) :
    (df.filter (fun r =>
        ¬ (genderBreakdown df r.paper = 0 ∨ genderBreakdown df r.paper = 1))).filter
      (fun r => r.paper = p) = df.filter (fun r => r.paper = p) := by
  rw [List.filter_filter]
  apply List.filter_congr
  intro r _
  by_cases hp : r.paper = p
  · simp [hp, hgood]
  · simp [hp]

theorem genderBreakdown_filter_good (df : List GRow) (p : ℕ)
    (hgood : ¬ (genderBreakdown df p = 0 ∨ genderBreakdown df p = 1)) :
    genderBreakdown (df.filter (fun r =>
      ¬ (genderBreakdown df r.paper = 0 ∨ genderBreakdown df r.paper = 1))) p =
      genderBreakdown df p := by
  rw [genderBreakdown, genderBreakdown, filter_good_group df p hgood]

/-- C8 (confirmed): on any dataset whose row index is free of duplicates
(as it always is at the call sites, the merge having produced a fresh dense
index), the mixed-gender restriction is idempotent. -/
theorem c8_restrict_idempotent (df : List GRow) (hnd : (df.map GRow.idx).Nodup) :
    restrictMixed (restrictMixed df) = restrictMixed df := by
  have h1 := restrictMixed_eq_filter df hnd
  have hnd' : ((restrictMixed df).map GRow.idx).Nodup := by
    rw [h1, resetIdxG_idx]
    exact List.nodup_range' _ _
  have h2 := restrictMixed_eq_filter (restrictMixed df) hnd'
  have hall : ∀ r ∈ restrictMixed df,
      ¬ (genderBreakdown (restrictMixed df) r.paper = 0 ∨
         genderBreakdown (restrictMixed df) r.paper = 1) := by
    intro r hr
    rw [h1] at hr
    rcases mem_resetIdxG 0 _ r hr with ⟨s, hs, hpap, _⟩
    rcases List.mem_filter.mp hs with ⟨_, hsgoodb⟩
    have hsgood : ¬ (genderBreakdown df s.paper = 0 ∨ genderBreakdown df s.paper = 1) := by
      simpa using hsgoodb
    have hgb : genderBreakdown (restrictMixed df) r.paper = genderBreakdown df s.paper := by
      rw [h1, hpap, genderBreakdown_resetIdxG, genderBreakdown_filter_good df s.paper hsgood]
    rw [hgb]
    exact hsgood
  rw [h2]
  have hkeep : (restrictMixed df).filter (fun r =>
      ¬ (genderBreakdown (restrictMixed df) r.paper = 0 ∨
         genderBreakdown (restrictMixed df) r.paper = 1)) = restrictMixed df := by
    apply List.filter_eq_self.mpr
    intro r hr
    simpa using hall r hr
  rw [hkeep]
  conv_lhs => rw [h1]
  conv_rhs => rw [h1]
  exact resetIdxG_resetIdxG 0 _

/-- Witness for C8 at the scenario dataset. -/
theorem c8_witness :
    restrictMixed (restrictMixed [⟨0, 10, 0⟩, ⟨1, 10, 1⟩, ⟨2, 20, 0⟩, ⟨3, 20, 0⟩]) =
      restrictMixed [⟨0, 10, 0⟩, ⟨1, 10, 1⟩, ⟨2, 20, 0⟩, ⟨3, 20, 0⟩] :=
  c8_restrict_idempotent _ (by decide)

end Restrict

/-! ## Balancing theorems (claims C2, C3) -/

namespace Balance

theorem minSnd_le : ∀ (l : List (ℕ × ℕ)), ∀ kn ∈ l, minSnd l ≤ kn.2 := by
  intro l
  induction l with
  | nil => intro kn h; exact absurd h (List.not_mem_nil kn)
  | cons a t ih =>
    intro kn h
    cases t with
    | nil =>
      rw [List.mem_singleton.mp h]
      exact le_rfl
    | cons b u =>
      rcases List.mem_cons.mp h with h1 | h2
      · rw [h1, minSnd]
        exact min_le_left _ _
      · exact le_trans (min_le_right _ _) (ih kn h2)

theorem minSnd_mem : ∀ (l : List (ℕ × ℕ)), l ≠ [] → minSnd l ∈ l.map Prod.snd := by
  intro l
  induction l with
  | nil => intro h; exact absurd rfl h
  | cons a t ih =>
    intro _
    cases t with
    | nil => simp [minSnd]
    | cons b u =>
      rw [minSnd]
      rcases le_total a.2 (minSnd (b :: u)) with h | h
      · rw [min_eq_left h]
        simp
      · rw [min_eq_right h]
        exact List.mem_cons_of_mem _ (ih (by simp))

theorem insertDesc_perm (x : ℕ × ℕ) (l : List (ℕ × ℕ)) :
    List.Perm (insertDesc x l) (x :: l) := by
  induction l with
  | nil => exact List.Perm.refl _
  | cons y ys ih =>
    rw [insertDesc]
    split
    · exact List.Perm.refl _
    · exact (ih.cons y).trans (List.Perm.swap x y ys)

theorem sortDesc_perm (l : List (ℕ × ℕ)) : List.Perm (sortDesc l) l := by
  induction l with
  | nil => exact List.Perm.refl _
  | cons a t ih =>
    rw [sortDesc, List.foldr_cons]
    exact (insertDesc_perm a _).trans (ih.cons a)

theorem mem_valueCounts (l : List ℕ) (kn : ℕ × ℕ) :
    kn ∈ valueCounts l ↔ kn.1 ∈ l.dedup ∧ kn.2 = l.count kn.1 := by
  rw [valueCounts, (sortDesc_perm _).mem_iff]
  constructor
  · intro h
    rcases List.mem_map.mp h with ⟨v, hv, he⟩
    constructor
    · rw [← he]; exact hv
    · rw [← he]
  · rintro ⟨h1, h2⟩
    exact List.mem_map.mpr ⟨kn.1, h1, by rw [← h2]⟩

theorem valueCounts_fst_nodup (l : List ℕ) : ((valueCounts l).map Prod.fst).Nodup := by
  have hperm : List.Perm ((valueCounts l).map Prod.fst)
      ((l.dedup.map (fun v => (v, l.count v))).map Prod.fst) :=
    (sortDesc_perm _).map Prod.fst
  rw [hperm.nodup_iff, List.map_map]
  have hcomp : (Prod.fst ∘ fun v => (v, l.count v)) = fun (v : ℕ) => v := rfl
  rw [hcomp, List.map_id']
  exact l.nodup_dedup

theorem countCls_eq_count : ∀ (df : List BRow) (c : ℕ),
    countCls df c = (df.map BRow.cls).count c := by
  intro df c
  induction df with
  | nil => rfl
  | cons a t ih =>
    by_cases h : a.cls = c
    · simp only [countCls, List.filter_cons, List.map_cons] at *
      simp [h, List.count_cons, ih]
    · simp only [countCls, List.filter_cons, List.map_cons] at *
      simp [h, List.count_cons, ih]

theorem filter_comm_bool (l : List BRow) (p q : BRow → Bool) :
    (l.filter p).filter q = (l.filter q).filter p := by
  rw [List.filter_filter, List.filter_filter]
  apply List.filter_congr
  intro x _
  exact Bool.and_comm _ _

theorem length_filter_ne_key : ∀ (l : List BRow),
    (l.map BRow.idx).Nodup → ∀ r ∈ l,
    (l.filter (fun x => ¬ x.idx = r.idx)).length + 1 = l.length := by
  intro l
  induction l with
  | nil => intro _ r hr; exact absurd hr (List.not_mem_nil r)
  | cons a t ih =>
    intro hnd r hr
    rw [List.map_cons, List.nodup_cons] at hnd
    rcases List.mem_cons.mp hr with h | h
    · subst h
      have hdrop : (decide (¬ r.idx = r.idx)) = false := by simp
      rw [List.filter_cons, hdrop]
      have hkeep : t.filter (fun x => ¬ x.idx = r.idx) = t := by
        apply List.filter_eq_self.mpr
        intro x hx
        have hxne : x.idx ≠ r.idx := by
          intro he
          exact hnd.1 (he ▸ List.mem_map_of_mem BRow.idx hx)
        simpa using hxne
      simp only [Bool.false_eq_true, if_false, hkeep, List.length_cons]
    · have hne : a.idx ≠ r.idx := by
        intro he
        exact hnd.1 (he ▸ List.mem_map_of_mem BRow.idx h)
      have hkeep : (decide (¬ a.idx = r.idx)) = true := by simp [hne]
      rw [List.filter_cons, hkeep]
      simp only [List.length_cons, Nat.add_right_cancel_iff]
      exact ih hnd.2 r h

theorem dropIdx_ok (df : List BRow) (i : ℕ) (df2 : List BRow)
    (h : dropIdx df i = .ok df2) :
    df2 = df.filter (fun r => ¬ r.idx = i) ∧ ∃ r ∈ df, r.idx = i := by
  rw [dropIdx] at h
  split at h
  case isTrue hany =>
    constructor
    · injection h with h'
      exact h'.symm
    · rcases List.any_eq_true.mp hany with ⟨r, hr, hri⟩
      exact ⟨r, hr, by simpa using hri⟩
  case isFalse => exact absurd h (by simp)

/-- Loop invariant of `classLoop` for one class: the live dataset is a
sublist of the dataset at the start of the class iteration, and every
snapshot row that has disappeared from the live dataset is exactly the row
that a visit to its paper designates (so a revisit re-picks it and the
`drop` raises `KeyError` instead of eroding the group further). -/
def LoopInv (pick : ℕ → List BRow → ℕ) (seed : ℕ) (snapshot : List BRow)
    (df0 df : List BRow) : Prop :=
  df.Sublist df0 ∧
    ∀ s ∈ snapshot, s ∉ df → pickedOf pick seed snapshot s.paper = some s

theorem classLoop_ok
    (pick : ℕ → List BRow → ℕ) (seed : ℕ) (c : ℕ) (df0 : List BRow)
    (hnd : (df0.map BRow.idx).Nodup)
    (snapshot : List BRow) (hsnap : snapshot = df0.filter (fun r => r.cls = c))
    (papers : List ℕ) (imbalance : ℕ) :
    ∀ (fuel : ℕ) (df : List BRow) (dropped : ℕ) (pending : List ℕ)
      (res : List BRow) (evs : List DropEvent),
      LoopInv pick seed snapshot df0 df →
      classLoop pick seed snapshot papers imbalance fuel df dropped pending = .ok (res, evs) →
      LoopInv pick seed snapshot df0 res ∧
      evs.length + dropped = imbalance ∧
      res.length + evs.length = df.length ∧
      countCls res c + evs.length = countCls df c ∧
      (∀ c', c' ≠ c → countCls res c' = countCls df c') ∧
      (∀ ev ∈ evs, 2 ≤ ev.countBefore) := by
  intro fuel
  induction fuel with
  | zero =>
    intro df dropped pending res evs _ h
    exact absurd h (by cases pending <;> simp [classLoop])
  | succ fuel ih =>
    intro df dropped pending res evs hinv h
    cases pending with
    | nil => exact ih df dropped papers res evs hinv h
    | cons p rest =>
      simp only [classLoop] at h
      split at h
      · -- protected paper: skipped, dataset unchanged
        exact ih df dropped rest res evs hinv h
      · rename_i hlen
        split at h
        · exact absurd h (by simp)
        · rename_i r hget
          -- r is the sampled row of paper p's snapshot group
          have hr_cur : r ∈ snapshot.filter (fun x => x.paper = p) := by
            rcases List.getElem?_eq_some.mp hget with ⟨hlt, he⟩
            exact he ▸ List.getElem_mem hlt
          have hr_snap : r ∈ snapshot := List.mem_of_mem_filter hr_cur
          have hr_paper : r.paper = p := by
            have := List.of_mem_filter hr_cur
            simpa using this
          have hr_snap' : r ∈ df0.filter (fun x => x.cls = c) := by
            rw [← hsnap]; exact hr_snap
          have hr_cls : r.cls = c := by
            have := List.of_mem_filter hr_snap'
            simpa using this
          have hr_df0 : r ∈ df0 := List.mem_of_mem_filter hr_snap'
          have hnd_df : (df.map BRow.idx).Nodup := hnd.sublist (hinv.1.map BRow.idx)
          split at h
          · exact absurd h (by simp)
          · rename_i df2 hdropOk
            rcases dropIdx_ok df r.idx df2 hdropOk with ⟨hdf2, x, hx_df, hx_idx⟩
            have hr_df : r ∈ df := by
              have hx_df0 : x ∈ df0 := hinv.1.subset hx_df
              have : x = r := List.inj_on_of_nodup_map hnd hx_df0 hr_df0 hx_idx
              exact this ▸ hx_df
            -- the picked row of paper p is r
            have hpicked : pickedOf pick seed snapshot p = some r := by
              rw [pickedOf, if_neg hlen]
              exact hget
            -- every row of the snapshot group is still live
            have hcur_live : ∀ s ∈ snapshot.filter (fun x => x.paper = p), s ∈ df := by
              intro s hs
              by_contra hs_df
              have hsp : s.paper = p := by
                have := List.of_mem_filter hs
                simpa using this
              have hth := hinv.2 s (List.mem_of_mem_filter hs) hs_df
              rw [hsp, hpicked] at hth
              injection hth with hsr
              exact hs_df (hsr ▸ hr_df)
            -- the live dataset holds at least two rows of (p, c)
            have hcount2 : 2 ≤ (df.filter (fun x => x.paper = r.paper ∧ x.cls = r.cls)).length := by
              have hsubset : (snapshot.filter (fun x => x.paper = p)) ⊆
                  df.filter (fun x => x.paper = r.paper ∧ x.cls = r.cls) := by
                intro s hs
                apply List.mem_filter.mpr
                refine ⟨hcur_live s hs, ?_⟩
                have hsp : s.paper = p := by
                  have := List.of_mem_filter hs
                  simpa using this
                have hsc : s.cls = c := by
                  have hs_snap' : s ∈ df0.filter (fun x => x.cls = c) := by
                    rw [← hsnap]; exact List.mem_of_mem_filter hs
                  have := List.of_mem_filter hs_snap'
                  simpa using this
                simp [hsp, hr_paper, hsc, hr_cls]
              have hcur_nd : (snapshot.filter (fun x => x.paper = p)).Nodup := by
                have h1 : ((snapshot.filter (fun x => x.paper = p)).map BRow.idx).Nodup := by
                  apply hnd.sublist
                  apply List.Sublist.map
                  exact ((List.filter_sublist _).trans (hsnap ▸ List.filter_sublist df0))
                exact h1.of_map BRow.idx
              have hle := (hcur_nd.subperm hsubset).length_le
              omega
            -- effect of the drop on lengths and class counts
            have hlen_df2 : df2.length + 1 = df.length := by
              rw [hdf2]
              exact length_filter_ne_key df hnd_df r hr_df
            have hcls_df2 : countCls df2 c + 1 = countCls df c := by
              rw [hdf2, countCls, filter_comm_bool, countCls]
              have hrmem : r ∈ df.filter (fun x => x.cls = c) :=
                List.mem_filter.mpr ⟨hr_df, by simp [hr_cls]⟩
              have hnd2 : ((df.filter (fun x => x.cls = c)).map BRow.idx).Nodup :=
                hnd_df.sublist ((List.filter_sublist df).map BRow.idx)
              exact length_filter_ne_key _ hnd2 r hrmem
            have hcls_df2' : ∀ c', c' ≠ c → countCls df2 c' = countCls df c' := by
              intro c' hc'
              rw [hdf2, countCls, filter_comm_bool, countCls]
              congr 1
              apply List.filter_eq_self.mpr
              intro s hs
              have hs_df : s ∈ df := List.mem_of_mem_filter hs
              have hs_cls : s.cls = c' := by
                have := List.of_mem_filter hs
                simpa using this
              have : s.idx ≠ r.idx := by
                intro he
                have : s = r := List.inj_on_of_nodup_map hnd_df hs_df hr_df he
                rw [this, hr_cls] at hs_cls
                exact hc' hs_cls.symm
              simpa using this
            -- the invariant survives the drop
            have hinv2 : LoopInv pick seed snapshot df0 df2 := by
              constructor
              · rw [hdf2]
                exact (List.filter_sublist df).trans hinv.1
              · intro s hs_snap hs_df2
                by_cases hs_df : s ∈ df
                · have hs_idx : s.idx = r.idx := by
                    by_contra hne
                    apply hs_df2
                    rw [hdf2]
                    exact List.mem_filter.mpr ⟨hs_df, by simpa using hne⟩
                  have hs_snap' : s ∈ df0.filter (fun x => x.cls = c) := by
                    rw [← hsnap]; exact hs_snap
                  have hs_df0 : s ∈ df0 := List.mem_of_mem_filter hs_snap'
                  have hsr : s = r := List.inj_on_of_nodup_map hnd hs_df0 hr_df0 hs_idx
                  rw [hsr, hr_paper, hpicked]
                · exact hinv.2 s hs_snap hs_df
            split at h
            · -- this drop reached the target: the loop stops
              rename_i him
              injection h with hpair
              injection hpair with hres hevs
              refine ⟨hres ▸ hinv2, ?_, ?_, ?_, ?_, ?_⟩
              · rw [← hevs]
                simp only [List.length_singleton]
                omega
              · rw [← hres, ← hevs]
                simp only [List.length_singleton]
                omega
              · rw [← hres, ← hevs]
                simp only [List.length_singleton]
                omega
              · intro c' hc'
                rw [← hres]
                exact hcls_df2' c' hc'
              · intro ev hev
                rw [← hevs] at hev
                rcases List.mem_singleton.mp hev with rfl
                exact hcount2
            · rename_i him
              split at h
              · exact absurd h (by simp)
              · rename_i dffin evs' hrec
                injection h with hpair
                injection hpair with hres hevs
                rcases ih df2 (dropped + 1) rest dffin evs' hinv2 hrec with
                  ⟨hi1, hi2, hi3, hi4, hi5, hi6⟩
                refine ⟨hres ▸ hi1, ?_, ?_, ?_, ?_, ?_⟩
                · rw [← hevs]
                  simp only [List.length_cons]
                  omega
                · rw [← hres, ← hevs]
                  simp only [List.length_cons]
                  omega
                · rw [← hres, ← hevs]
                  simp only [List.length_cons]
                  omega
                · intro c' hc'
                  rw [← hres, hi5 c' hc']
                  exact hcls_df2' c' hc'
                · intro ev hev
                  rw [← hevs] at hev
                  rcases List.mem_cons.mp hev with rfl | hev'
                  · exact hcount2
                  · exact hi6 ev hev'

theorem balanceClass_ok (pick : ℕ → List BRow → ℕ) (shuffle : ℕ → List ℕ → List ℕ)
    (seed fuel : ℕ) (df : List BRow) (c minC n : ℕ)
    (hnd : (df.map BRow.idx).Nodup) (hcount : countCls df c = n) (hmin : minC ≤ n)
    (res : List BRow) (evs : List DropEvent)
    (h : balanceClass pick shuffle seed fuel df c minC n = .ok (res, evs)) :
    res.Sublist df ∧ countCls res c = minC ∧
    (∀ c', c' ≠ c → countCls res c' = countCls df c') ∧
    (∀ ev ∈ evs, 2 ≤ ev.countBefore) := by
  rw [balanceClass] at h
  split at h
  · rename_i he
    injection h with hpair
    injection hpair with hres hevs
    refine ⟨hres ▸ List.Sublist.refl df, ?_, ?_, ?_⟩
    · rw [← hres, hcount, he]
    · intro c' _
      rw [← hres]
    · intro ev hev
      rw [← hevs] at hev
      exact absurd hev (List.not_mem_nil ev)
  · rename_i he
    have hinv0 : LoopInv pick seed (df.filter (fun r => r.cls = c)) df df :=
      ⟨List.Sublist.refl df, fun s hs hsdf => absurd (List.mem_of_mem_filter hs) hsdf⟩
    have hloop := classLoop_ok pick seed c df hnd _ rfl (shuffle seed (papersOf df))
      (n - minC) fuel df 0 (shuffle seed (papersOf df)) res evs hinv0 h
    obtain ⟨hinv, h2, _, h4, h5, h6⟩ := hloop
    refine ⟨hinv.1, ?_, h5, h6⟩
    omega

theorem balanceAll_ok (pick : ℕ → List BRow → ℕ) (shuffle : ℕ → List ℕ → List ℕ)
    (seed fuel minC : ℕ) :
    ∀ (vc : List (ℕ × ℕ)) (df res : List BRow) (evs : List DropEvent),
      (df.map BRow.idx).Nodup →
      (∀ kn ∈ vc, countCls df kn.1 = kn.2 ∧ minC ≤ kn.2) →
      (vc.map Prod.fst).Nodup →
      balanceAll pick shuffle seed fuel minC vc df = .ok (res, evs) →
      (∀ kn ∈ vc, countCls res kn.1 = minC) ∧
      (∀ c, c ∉ vc.map Prod.fst → countCls res c = countCls df c) ∧
      (∀ ev ∈ evs, 2 ≤ ev.countBefore) ∧ res.Sublist df := by
  intro vc
  induction vc with
  | nil =>
    intro df res evs _ _ _ h
    simp only [balanceAll] at h
    injection h with hpair
    injection hpair with hres hevs
    refine ⟨fun kn hkn => absurd hkn (List.not_mem_nil kn), fun c _ => by rw [← hres],
      fun ev hev => ?_, hres ▸ List.Sublist.refl df⟩
    rw [← hevs] at hev
    exact absurd hev (List.not_mem_nil ev)
  | cons kn rest ih =>
    intro df res evs hnd hc hf h
    obtain ⟨cc, nn⟩ := kn
    simp only [balanceAll] at h
    split at h
    · exact absurd h (by simp)
    · rename_i df2 evs1 hcls
      split at h
      · exact absurd h (by simp)
      · rename_i df3 evs2 hrest
        injection h with hpair
        injection hpair with hres hevs
        have hhead := hc (cc, nn) (List.mem_cons_self _ _)
        obtain ⟨hsub1, hcc, hoth1, hev1⟩ :=
          balanceClass_ok pick shuffle seed fuel df cc minC nn hnd hhead.1 hhead.2
            df2 evs1 hcls
        have hnd2 : (df2.map BRow.idx).Nodup := hnd.sublist (hsub1.map BRow.idx)
        rw [List.map_cons, List.nodup_cons] at hf
        have hc2 : ∀ kn' ∈ rest, countCls df2 kn'.1 = kn'.2 ∧ minC ≤ kn'.2 := by
          intro kn' hkn'
          have hne : kn'.1 ≠ cc := by
            intro heq
            apply hf.1
            rw [← heq]
            exact List.mem_map.mpr ⟨kn', hkn', rfl⟩
          have hthis := hc kn' (List.mem_cons_of_mem _ hkn')
          exact ⟨by rw [hoth1 kn'.1 hne, hthis.1], hthis.2⟩
        obtain ⟨hrest1, hrest2, hrest3, hsub2⟩ := ih df2 df3 evs2 hnd2 hc2 hf.2 hrest
        refine ⟨?_, ?_, ?_, ?_⟩
        · intro kn' hkn'
          rcases List.mem_cons.mp hkn' with heq | hm
          · rw [heq, ← hres]
            show countCls df3 cc = minC
            rw [hrest2 cc hf.1]
            exact hcc
          · rw [← hres]
            exact hrest1 kn' hm
        · intro c hcm
          simp only [List.map_cons, List.mem_cons, not_or] at hcm
          rw [← hres, hrest2 c hcm.2]
          exact hoth1 c hcm.1
        · intro ev hev
          rw [← hevs] at hev
          rcases List.mem_append.mp hev with h1 | h2
          · exact hev1 ev h1
          · exact hrest3 ev h2
        · rw [← hres]
          exact hsub2.trans hsub1

theorem resetIdxB_countCls (l : List BRow) (c : ℕ) : ∀ n : ℕ,
    countCls (resetIdxB n l) c = countCls l c := by
  induction l with
  | nil => intro n; rfl
  | cons a t ih =>
    intro n
    simp only [resetIdxB, countCls, List.filter_cons] at *
    by_cases h : a.cls = c
    · simp [h, ih]
    · simp [h, ih]

/-- C2 (confirmed): when `_balance_sample_by_categorical_column` terminates
normally (returns `ok`), every class value that appears in the balanced
column ends with exactly the same row count, namely
`minSnd (valueCounts ...)`, the minimum of the per-class counts taken
before balancing began: the second and third conjuncts state that this
quantity is a lower bound of all pre-balance class counts and is attained
by some class. -/
theorem c2_balanced_class_counts (pick : ℕ → List BRow → ℕ)
    (shuffle : ℕ → List ℕ → List ℕ) (seed fuel : ℕ) (df res : List BRow)
    (evs : List DropEvent) (hnd : (df.map BRow.idx).Nodup)
    (hok : balanceSample pick shuffle seed fuel df = .ok (res, evs)) :
    (∀ c ∈ df.map BRow.cls, countCls res c = minSnd (valueCounts (df.map BRow.cls))) ∧
    (∀ c ∈ df.map BRow.cls, minSnd (valueCounts (df.map BRow.cls)) ≤ countCls df c) ∧
    (df ≠ [] →
      ∃ c ∈ df.map BRow.cls, countCls df c = minSnd (valueCounts (df.map BRow.cls))) := by
  simp only [balanceSample] at hok
  split at hok
  · exact absurd hok (by simp)
  · rename_i df2 evs1 hall
    injection hok with hpair
    injection hpair with hres hevs
    have hvc : ∀ kn ∈ valueCounts (df.map BRow.cls),
        countCls df kn.1 = kn.2 ∧ minSnd (valueCounts (df.map BRow.cls)) ≤ kn.2 := by
      intro kn hkn
      have hm := (mem_valueCounts _ kn).mp hkn
      exact ⟨by rw [countCls_eq_count, ← hm.2], minSnd_le _ kn hkn⟩
    obtain ⟨hb1, _, _, _⟩ := balanceAll_ok pick shuffle seed fuel _ _ df df2 evs1
      hnd hvc (valueCounts_fst_nodup _) hall
    refine ⟨?_, ?_, ?_⟩
    · intro c hc
      have hmemvc : (c, (df.map BRow.cls).count c) ∈ valueCounts (df.map BRow.cls) :=
        (mem_valueCounts _ _).mpr ⟨List.mem_dedup.mpr hc, rfl⟩
      have hthis := hb1 _ hmemvc
      rw [← hres, resetIdxB_countCls]
      exact hthis
    · intro c hc
      have hmemvc : (c, (df.map BRow.cls).count c) ∈ valueCounts (df.map BRow.cls) :=
        (mem_valueCounts _ _).mpr ⟨List.mem_dedup.mpr hc, rfl⟩
      have hthis := minSnd_le _ _ hmemvc
      rw [countCls_eq_count]
      exact hthis
    · intro hne
      have hvcne : valueCounts (df.map BRow.cls) ≠ [] := by
        intro hemp
        have hlen := (sortDesc_perm (((df.map BRow.cls).dedup).map
          (fun v => (v, (df.map BRow.cls).count v)))).length_eq
        rw [valueCounts] at hemp
        rw [hemp] at hlen
        simp only [List.length_nil, List.length_map] at hlen
        have : (df.map BRow.cls).dedup = [] := List.eq_nil_of_length_eq_zero hlen.symm
        rw [List.dedup_eq_nil] at this
        exact hne (List.map_eq_nil_iff.mp this)
      have hmem := minSnd_mem _ hvcne
      rcases List.mem_map.mp hmem with ⟨kn, hkn, hkn2⟩
      have hm := (mem_valueCounts _ kn).mp hkn
      exact ⟨kn.1, List.mem_dedup.mp hm.1, by rw [countCls_eq_count, ← hm.2, hkn2]⟩

/-- Witness for C2 on a concrete successful balancing run: the class 0,
which started with two rows against a minimum of one, ends with exactly
the minimum count. -/
theorem c2_witness :
    countCls [(⟨0, 0, 0⟩ : BRow), ⟨1, 1, 1⟩] 0 =
      minSnd (valueCounts ([(⟨0, 0, 0⟩ : BRow), ⟨1, 0, 0⟩, ⟨2, 1, 1⟩].map BRow.cls)) :=
  (c2_balanced_class_counts (fun _ _ => 0) (fun _ l => l) 0 10
    [⟨0, 0, 0⟩, ⟨1, 0, 0⟩, ⟨2, 1, 1⟩] [⟨0, 0, 0⟩, ⟨1, 1, 1⟩]
    [⟨⟨0, 0, 0⟩, 2⟩] (by decide) (by rfl)).1 0 (by decide)

/-- C3 (confirmed): every row removal performed during a normally
terminating balancing run removes a row from a `(paper, class)` group that,
at the moment of removal, still holds at least two rows of that class in
the live dataset — a paper's sole remaining representative of an
oversampled class is never removed. -/
theorem c3_protected_removals (pick : ℕ → List BRow → ℕ)
    (shuffle : ℕ → List ℕ → List ℕ) (seed fuel : ℕ) (df res : List BRow)
    (evs : List DropEvent) (hnd : (df.map BRow.idx).Nodup)
    (hok : balanceSample pick shuffle seed fuel df = .ok (res, evs)) :
    ∀ ev ∈ evs, 2 ≤ ev.countBefore := by
  simp only [balanceSample] at hok
  split at hok
  · exact absurd hok (by simp)
  · rename_i df2 evs1 hall
    injection hok with hpair
    injection hpair with _ hevs
    have hvc : ∀ kn ∈ valueCounts (df.map BRow.cls),
        countCls df kn.1 = kn.2 ∧ minSnd (valueCounts (df.map BRow.cls)) ≤ kn.2 := by
      intro kn hkn
      have hm := (mem_valueCounts _ kn).mp hkn
      exact ⟨by rw [countCls_eq_count, ← hm.2], minSnd_le _ kn hkn⟩
    obtain ⟨_, _, hb3, _⟩ := balanceAll_ok pick shuffle seed fuel _ _ df df2 evs1
      hnd hvc (valueCounts_fst_nodup _) hall
    intro ev hev
    rw [← hevs] at hev
    exact hb3 ev hev

/-- Witness for C3 on the same concrete run: the single recorded removal
took a row from a group holding two rows at the moment of removal. -/
theorem c3_witness :
    2 ≤ (⟨⟨0, 0, 0⟩, 2⟩ : DropEvent).countBefore :=
  c3_protected_removals (fun _ _ => 0) (fun _ l => l) 0 10
    [⟨0, 0, 0⟩, ⟨1, 0, 0⟩, ⟨2, 1, 1⟩] [⟨0, 0, 0⟩, ⟨1, 1, 1⟩]
    [⟨⟨0, 0, 0⟩, 2⟩] (by decide) (by rfl) ⟨⟨0, 0, 0⟩, 2⟩ (by decide)

end Balance

/-! ## Resampling theorems (claim C10) -/

namespace Resample

theorem range_filter_length (s : Finset ℕ) (n : ℕ) :
    ((List.range n).filter (fun i => decide (i ∈ s))).length = (s ∩ Finset.range n).card := by
  have hnd : ((List.range n).filter (fun i => decide (i ∈ s))).Nodup :=
    (List.nodup_range n).filter _
  rw [← List.toFinset_card_of_nodup hnd]
  congr 1
  apply Finset.ext
  intro a
  simp only [List.mem_toFinset, List.mem_filter, List.mem_range, Finset.mem_inter,
    Finset.mem_range, decide_eq_true_eq]
  exact and_comm

theorem length_split_vals : ∀ (l : List SRow), (∀ r ∈ l, r.val = 0 ∨ r.val = 1) →
    l.length = (l.filter (fun r => r.val = 1)).length +
      (l.filter (fun r => r.val = 0)).length := by
  intro l
  induction l with
  | nil => intro _; rfl
  | cons a t ih =>
    intro h
    have ht := fun r hr => h r (List.mem_cons_of_mem a hr)
    have hrec := ih ht
    have d01 : (decide ((0 : ℚ) = 1)) = false := by norm_num
    have d00 : (decide ((0 : ℚ) = 0)) = true := by norm_num
    have d11 : (decide ((1 : ℚ) = 1)) = true := by norm_num
    have d10 : (decide ((1 : ℚ) = 0)) = false := by norm_num
    rcases h a (List.mem_cons_self a t) with h0 | h1
    · rw [List.filter_cons, List.filter_cons, h0, d01, d00]
      simp only [Bool.false_eq_true, if_false, if_true, List.length_cons]
      omega
    · rw [List.filter_cons, List.filter_cons, h1, d11, d10]
      simp only [Bool.false_eq_true, if_false, if_true, List.length_cons]
      omega

/-- C10 (confirmed): on a dataset with a dense zero-based index, for every
value of the (unread) `p` and `ensure_balanced` arguments,
`resample_variable_binomial` on an existing column sets exactly
`⌊N/2⌋` rows (the seed-chosen labels) to 1 and all remaining rows to 0. -/
theorem c10_resample_half (choice : ℕ → ℕ → ℕ → Finset ℕ) (seed : ℕ)
    (cols : List String) (varName : String) (p : ℚ) (eb : Bool)
    (df out : List SRow)
    (hcol : varName ∈ cols)
    (hidx : df.map SRow.idx = List.range df.length)
    (hsub : choice seed df.length (df.length / 2) ⊆ Finset.range df.length)
    (hcard : (choice seed df.length (df.length / 2)).card = df.length / 2)
    (hok : resampleVariableBinomial choice seed cols varName p eb df = .ok out) :
    (out.filter (fun r => r.val = 1)).length = df.length / 2 ∧
    (out.filter (fun r => r.val = 0)).length = df.length - df.length / 2 ∧
    (∀ r ∈ out, r.val = 0 ∨ r.val = 1) := by
  rw [resampleVariableBinomial, if_pos hcol] at hok
  injection hok with hout
  have hvals : ∀ r ∈ out, r.val = 0 ∨ r.val = 1 := by
    intro r hr
    rw [← hout] at hr
    rcases List.mem_map.mp hr with ⟨x, _, hx⟩
    by_cases hmem : x.idx ∈ choice seed df.length (df.length / 2)
    · right
      rw [← hx]
      simp [hmem]
    · left
      rw [← hx]
      simp [hmem]
  have hlen_out : out.length = df.length := by
    rw [← hout, List.length_map]
  have hones : (out.filter (fun r => r.val = 1)).length = df.length / 2 := by
    rw [← hout, ← List.countP_eq_length_filter, List.countP_map]
    have hstep : df.countP ((fun r => decide (r.val = 1)) ∘ (fun r =>
        if r.idx ∈ choice seed df.length (df.length / 2) then { r with val := 1 }
        else { r with val := 0 })) =
        df.countP (fun x => decide (x.idx ∈ choice seed df.length (df.length / 2))) := by
      apply List.countP_congr
      intro x _
      by_cases hmem : x.idx ∈ choice seed df.length (df.length / 2)
      · simp [Function.comp, hmem]
      · simp [Function.comp, hmem]
    have hmap : (df.map SRow.idx).countP
        (fun i => decide (i ∈ choice seed df.length (df.length / 2))) =
        df.countP (fun x => decide (x.idx ∈ choice seed df.length (df.length / 2))) := by
      rw [List.countP_map]
      rfl
    rw [hstep, ← hmap]
    rw [hidx, List.countP_eq_length_filter, range_filter_length,
      Finset.inter_eq_left.mpr hsub, hcard]
  refine ⟨hones, ?_, hvals⟩
  have hsplit := length_split_vals out hvals
  omega

/-- Witness for C10 on a concrete 4-row dataset: exactly `⌊4/2⌋ = 2` rows
receive value 1. -/
theorem c10_witness :
    (([(⟨0, 1⟩ : SRow), ⟨1, 1⟩, ⟨2, 0⟩, ⟨3, 0⟩]).filter (fun r => r.val = 1)).length =
      ([(⟨0, 5⟩ : SRow), ⟨1, 5⟩, ⟨2, 5⟩, ⟨3, 5⟩] : List SRow).length / 2 :=
  (c10_resample_half (fun _ _ k => Finset.range k) 0 ["x"] "x" (1/2) true
    [⟨0, 5⟩, ⟨1, 5⟩, ⟨2, 5⟩, ⟨3, 5⟩] [⟨0, 1⟩, ⟨1, 1⟩, ⟨2, 0⟩, ⟨3, 0⟩]
    (by decide) (by decide) (by decide) (by decide) (by rfl)).1

end Resample

/-- C9 (confirmed): the randomized operations are deterministic in the
seed.  Two runs of class balancing or binomial resampling on identical
inputs with an identical stored seed produce identical outputs even when
the ambient interpreter RNG state (`g1` versus `g2`) differs, because both
operations derive all their randomness from freshly seeded generators
(`random.Random(self.seed)`, `random_state=self.seed`,
`np.random.seed(self.seed)`). -/
theorem c9_seed_determinism (g1 g2 : ℕ) (pick : ℕ → List Balance.BRow → ℕ)
    (shuffle : ℕ → List ℕ → List ℕ) (choice : ℕ → ℕ → ℕ → Finset ℕ)
    (seed fuel : ℕ) (df : List Balance.BRow) (cols : List String)
    (varName : String) (p : ℚ) (eb : Bool) (sdf : List Resample.SRow) :
    balanceWithGlobalRng g1 pick shuffle seed fuel df =
      balanceWithGlobalRng g2 pick shuffle seed fuel df ∧
    resampleWithGlobalRng g1 choice seed cols varName p eb sdf =
      resampleWithGlobalRng g2 choice seed cols varName p eb sdf :=
  ⟨rfl, rfl⟩

end RefereeReports
